import Mathlib

/-!
Verification of the load-monitoring program (loadrs) against its design
specification.  The program samples per-process CPU usage, attributes it to
users, computes a fair-share threshold and classifies users against it,
repeating on an interval until cancelled.

The Rust source (src/main.rs) is shallowly embedded below.  CPU percentages
are modelled as exact rationals (the spec's "modulo floating-point
tolerance" caveat); the two places where genuine IEEE behaviour decides a
claim — the division 100.0/0.0 producing +Infinity, and partial_cmp
returning None on NaN — are modelled explicitly with small extended value
types (FVal and F64).
-/

/-- One process snapshot entry, as consumed from sysinfo: the owning user id
(`p.user_id()` is an `Option`) and its instantaneous CPU-usage percentage. -/
structure ProcessSample where
  user_id : Option String
  cpu_usage : ℚ
  deriving Repr, DecidableEq

/-- Name resolution from main.rs lines 65-74: look the uid up in the
uid-to-name directory; on a miss synthesize "UID:<uid>", and when the
process has no user id at all, "UID:Unknown". -/
def resolve_name (dir : List (String × String)) (uid : Option String) : String :=
  match uid with
  | some u =>
    match dir.lookup u with
    | some name => name
    | none => "UID:" ++ u
  | none => "UID:Unknown"

/-- The fold step of main.rs lines 77-83: `*acc.entry(username).or_insert(0.0) += usage`,
with the HashMap modelled as an association list. -/
def add_usage : List (String × ℚ) → String → ℚ → List (String × ℚ)
  | [], name, u => [(name, u)]
  | (n, v) :: rest, name, u =>
    if n = name then (n, v + u) :: rest else (n, v) :: add_usage rest name u

/-- The aggregation fold of main.rs lines 61-85: resolve each sample's user
name and sum its CPU usage into the per-user map. -/
def accumulate (samples : List ProcessSample) (dir : List (String × String)) :
    List (String × ℚ) :=
  samples.foldl (fun acc s => add_usage acc (resolve_name dir s.user_id) s.cpu_usage) []

/-- The descending comparator of main.rs line 87: `|a, b| b.1.partial_cmp(&a.1)`,
i.e. `a` sorts before `b` when `a`'s summed usage is at least `b`'s. -/
def byUsageDesc (a b : String × ℚ) : Prop := b.2 ≤ a.2

instance : DecidableRel byUsageDesc :=
  fun a b => inferInstanceAs (Decidable (b.2 ≤ a.2))

instance : IsTotal (String × ℚ) byUsageDesc :=
  ⟨fun a b => le_total b.2 a.2⟩

instance : IsTrans (String × ℚ) byUsageDesc :=
  ⟨fun _ _ _ h1 h2 => le_trans h2 h1⟩

/-- The sort of main.rs line 87 (on NaN-free data, where the comparator is
total): sort by summed usage, descending. -/
def sort_desc (l : List (String × ℚ)) : List (String × ℚ) :=
  l.insertionSort byUsageDesc

/-- The Aggregator of main.rs lines 61-87: group samples by resolved user
name, sum usage per user, and sort descending by summed usage. -/
def user_cpu_usage (samples : List ProcessSample) (dir : List (String × String)) :
    List (String × ℚ) :=
  sort_desc (accumulate samples dir)

/-- The main table's row filter, main.rs lines 120-121: only rows with
`sum > 0.0` are displayed. -/
def displayed_rows (l : List (String × ℚ)) : List (String × ℚ) :=
  l.filter (fun p => decide (0 < p.2))

/-- The active-user count of main.rs lines 89-92: users whose per-core share
exceeds the active threshold. -/
def active_users (l : List (String × ℚ)) (cpus active_threshold : ℚ) : ℕ :=
  (l.filter (fun p => decide (active_threshold < p.2 / cpus))).length

/-- An f64 value that is either finite (modelled exactly as a rational) or
+Infinity; this is what the fair-share computation of main.rs line 93 can
produce, since `100.0 / 0.0 = +inf` in IEEE arithmetic. -/
inductive FVal where
  | fin (q : ℚ)
  | inf
  deriving Repr, DecidableEq

/-- IEEE `<` restricted to the values FVal models: any finite value is less
than +Infinity, and +Infinity is not less than anything. -/
def FVal.lt : FVal → FVal → Bool
  | .fin a, .fin b => decide (a < b)
  | .fin _, .inf => true
  | .inf, _ => false

/-- Multiplication by 0.5 (main.rs line 125), exact on finite values and
fixing +Infinity. -/
def FVal.half : FVal → FVal
  | .fin a => .fin (a / 2)
  | .inf => .inf

/-- The fair-share computation of main.rs line 93:
`cli.fair_share.unwrap_or(100.0 / active_users)`.  With no override and a
zero active-user count the IEEE division yields +Infinity. -/
def fair_share_val (override : Option ℚ) (active_count : ℕ) : FVal :=
  match override with
  | some f => .fin f
  | none => if active_count = 0 then .inf else .fin (100 / (active_count : ℚ))

/-- The row classification of main.rs lines 122-129: "red" when the user's
per-core share exceeds the fair share, "yellow" when it exceeds half the
fair share, "green" otherwise. -/
def row_color (cpu_share : ℚ) (fair_share : FVal) : String :=
  if fair_share.lt (.fin cpu_share) then "red"
  else if (fair_share.half).lt (.fin cpu_share) then "yellow"
  else "green"

/-- Sum of the usage percentages of a sample list (spec §8, sum invariant). -/
def sum_usages (samples : List ProcessSample) : ℚ :=
  (samples.map (·.cpu_usage)).sum

/-- Sum of the per-user totals of an aggregated list. -/
def sum_totals (l : List (String × ℚ)) : ℚ :=
  (l.map (·.2)).sum

/-- An f64 value that is either NaN or finite, for modelling the comparator
of main.rs line 87, whose `partial_cmp(..).unwrap()` panics on NaN. -/
inductive F64 where
  | nan
  | fin (q : ℚ)
  deriving Repr, DecidableEq

/-- `partial_cmp` on the values F64 models: `none` whenever either operand
is NaN, otherwise the total order on finite values. -/
def pcmp : F64 → F64 → Option Ordering
  | .nan, _ => none
  | _, .nan => none
  | .fin a, .fin b => some (compare a b)

/-- Insertion step of the line-87 sort with the partial comparator exposed:
`none` models the panic of `partial_cmp(..).unwrap()` on an incomparable
(NaN) pair; an element is inserted after every earlier element whose usage
compares at least as large. -/
def insert_part (p : String × F64) : List (String × F64) → Option (List (String × F64))
  | [] => some [p]
  | q :: rest =>
    match pcmp q.2 p.2 with
    | none => none
    | some Ordering.lt => some (p :: q :: rest)
    | some _ => (insert_part p rest).map (fun l => q :: l)

/-- The line-87 sort over possibly-NaN usages: `some` of a descending
rearrangement when every comparator call succeeds, `none` (panic) when a
NaN comparison is reached. -/
def sort_part : List (String × F64) → Option (List (String × F64))
  | [] => some []
  | p :: rest => (sort_part rest).bind (insert_part p)

/-- Whether an F64 value is finite (non-NaN). -/
def F64.isFin : F64 → Bool
  | .nan => false
  | .fin _ => true

/-- Outcome of the bounded wait on the cancellation channel
(main.rs line 182, `rx.recv_timeout(sleep_duration)`): the signal arrived
first (`Ok`), the timeout elapsed first (`Err(Timeout)`), or the channel
broke (`Err(Disconnected)`). -/
inductive WaitOutcome where
  | signal
  | timeout
  | disconnected
  deriving Repr, DecidableEq

/-- Phases of the refresh scheduler (spec §4.4). -/
inductive SchedState where
  | sampling
  | reporting
  | sleeping
  | terminated
  deriving Repr, DecidableEq

/-- Per-cycle environment data for one loop iteration of main.rs lines
43-194: whether the computed `sleep_duration` was positive (line 181's
guard), and, when the channel is actually waited on, which outcome the wait
produced. -/
structure CycleInput where
  sleepPositive : Bool
  outcome : WaitOutcome
  deriving Repr, DecidableEq

/-- The phase trace of the loop of main.rs lines 43-194, driven by one
CycleInput per iteration.  Each iteration samples and reports; in
single-shot mode the loop then breaks (line 174-176); in live mode the
channel is waited on only when `sleep_duration` is positive (line 181), and
the wait's outcome decides between terminating (signal or broken channel)
and the next iteration (timeout).  A zero sleep duration skips the wait
entirely and proceeds to the next iteration.  An empty input list leaves
the trace undetermined beyond that point. -/
def traceFrom (live : Bool) : List CycleInput → List SchedState
  | [] => []
  | c :: rest =>
    SchedState.sampling :: SchedState.reporting ::
      (if live then
        (if c.sleepPositive then
          SchedState.sleeping ::
            (match c.outcome with
             | .signal => [SchedState.terminated]
             | .disconnected => [SchedState.terminated]
             | .timeout => traceFrom live rest)
         else traceFrom live rest)
       else [SchedState.terminated])

/-! ### Helper lemmas -/

lemma sum_totals_cons (p : String × ℚ) (l : List (String × ℚ)) :
    sum_totals (p :: l) = p.2 + sum_totals l := by
  simp [sum_totals]

lemma sum_totals_add_usage (acc : List (String × ℚ)) (name : String) (u : ℚ) :
    sum_totals (add_usage acc name u) = sum_totals acc + u := by
  induction acc with
  | nil => simp [add_usage, sum_totals]
  | cons q rest ih =>
    rcases q with ⟨n, v⟩
    by_cases h : n = name
    · simp only [add_usage, if_pos h, sum_totals_cons]
      ring
    · simp only [add_usage, if_neg h, sum_totals_cons, ih]
      ring

lemma sum_totals_foldl (samples : List ProcessSample) (dir : List (String × String))
    (acc : List (String × ℚ)) :
    sum_totals (samples.foldl
        (fun a s => add_usage a (resolve_name dir s.user_id) s.cpu_usage) acc)
      = sum_totals acc + sum_usages samples := by
  induction samples generalizing acc with
  | nil => simp [sum_usages]
  | cons s rest ih =>
    simp only [List.foldl_cons]
    rw [ih, sum_totals_add_usage]
    simp only [sum_usages, List.map_cons, List.sum_cons]
    ring

lemma sum_totals_perm {l₁ l₂ : List (String × ℚ)} (h : l₁.Perm l₂) :
    sum_totals l₁ = sum_totals l₂ := by
  unfold sum_totals
  exact (h.map (·.2)).sum_eq

/-! ### Claims about the Aggregator -/

/-- C4: the sum of the aggregated per-user totals equals the sum of all
input samples' CPU-usage percentages, exactly (with usages embedded as
exact rationals). -/
theorem aggregate_sum_invariant (samples : List ProcessSample) (dir : List (String × String)) :
    sum_totals (user_cpu_usage samples dir) = sum_usages samples := by
  unfold user_cpu_usage sort_desc
  rw [sum_totals_perm (List.perm_insertionSort byUsageDesc (accumulate samples dir))]
  unfold accumulate
  rw [sum_totals_foldl]
  simp [sum_totals]

theorem aggregate_sum_invariant_witness :
    sum_totals (user_cpu_usage [⟨some "u1", 40⟩, ⟨some "u1", 10⟩, ⟨some "u2", 5⟩]
        [("u1", "alice"), ("u2", "bob")])
      = sum_usages [⟨some "u1", 40⟩, ⟨some "u1", 10⟩, ⟨some "u2", 5⟩] :=
  aggregate_sum_invariant [⟨some "u1", 40⟩, ⟨some "u1", 10⟩, ⟨some "u2", 5⟩]
    [("u1", "alice"), ("u2", "bob")]

/-- C6: the Aggregator's output is sorted non-increasing in the summed
usage (ties arbitrary). -/
theorem aggregate_sorted_desc (samples : List ProcessSample) (dir : List (String × String)) :
    (user_cpu_usage samples dir).Pairwise (fun a b => b.2 ≤ a.2) :=
  List.sorted_insertionSort byUsageDesc (accumulate samples dir)

theorem aggregate_sorted_desc_witness :
    (user_cpu_usage [⟨some "u1", 40⟩, ⟨some "u2", 5⟩] [("u1", "alice"), ("u2", "bob")]).Pairwise
      (fun a b => b.2 ≤ a.2) :=
  aggregate_sorted_desc [⟨some "u1", 40⟩, ⟨some "u2", 5⟩] [("u1", "alice"), ("u2", "bob")]

/-- C2 counterexample: the Aggregator's returned sequence can contain an
entry whose total is exactly zero — a single process with usage 0 yields
the output entry ("alice", 0).  The zero filter happens only downstream,
at table-rendering time (main.rs line 121). -/
theorem aggregator_emits_zero_usage :
    ("alice", (0 : ℚ)) ∈ user_cpu_usage [⟨some "u1", 0⟩] [("u1", "alice")] := by
  decide

/-- C2 (amended): zero-usage users are filtered downstream of the
Aggregator — the main table's row filter keeps only rows with summed usage
strictly positive, so no displayed row has total zero. -/
theorem displayed_rows_no_zero (samples : List ProcessSample) (dir : List (String × String))
    (p : String × ℚ) (hp : p ∈ displayed_rows (user_cpu_usage samples dir)) :
    0 < p.2 ∧ p.2 ≠ 0 := by
  unfold displayed_rows at hp
  have h := (List.mem_filter.mp hp).2
  simp only [decide_eq_true_eq] at h
  exact ⟨h, ne_of_gt h⟩

theorem displayed_rows_no_zero_witness :
    0 < (("alice", (50 : ℚ)) : String × ℚ).2 ∧ (("alice", (50 : ℚ)) : String × ℚ).2 ≠ 0 :=
  displayed_rows_no_zero [⟨some "u1", 50⟩] [("u1", "alice")] ("alice", (50 : ℚ)) (by decide)

/-! ### Claims about the fair-share computation and classification -/

/-- C3: a supplied override is used as the fair share regardless of the
active-user count, and with no override and a positive count the fair share
is exactly 100 divided by the count. -/
theorem fair_share_default_and_override (f : ℚ) (n : ℕ) :
    fair_share_val (some f) n = FVal.fin f ∧
      (0 < n → fair_share_val none n = FVal.fin (100 / (n : ℚ))) := by
  refine ⟨rfl, fun hn => ?_⟩
  unfold fair_share_val
  simp [hn.ne']

theorem fair_share_default_and_override_witness :
    fair_share_val (some 30) 2 = FVal.fin 30 ∧
      fair_share_val none 2 = FVal.fin (100 / ((2 : ℕ) : ℚ)) :=
  ⟨(fair_share_default_and_override 30 2).1,
   (fair_share_default_and_override 30 2).2 (by decide)⟩

/-- C5: the classification is exactly three-way — "red" (over) iff the
per-core share exceeds the fair share, "yellow" (near) iff it exceeds half
the fair share but not the fair share, and "green" (under) otherwise. -/
theorem row_color_three_way (s f : ℚ) :
    (row_color s (FVal.fin f) = "red" ↔ f < s) ∧
    (row_color s (FVal.fin f) = "yellow" ↔ f / 2 < s ∧ s ≤ f) ∧
    (row_color s (FVal.fin f) = "green" ↔ ¬ f < s ∧ ¬ (f / 2 < s ∧ s ≤ f)) := by
  unfold row_color FVal.lt FVal.half
  by_cases h1 : f < s
  · simp [h1, h1.not_le]
  · by_cases h2 : f / 2 < s
    · simp [h1, h2, le_of_not_lt h1]
    · simp [h1, h2]

theorem row_color_three_way_witness :
    (row_color 12 (FVal.fin 50) = "red" ↔ (50 : ℚ) < 12) ∧
    (row_color 12 (FVal.fin 50) = "yellow" ↔ (50 : ℚ) / 2 < 12 ∧ (12 : ℚ) ≤ 50) ∧
    (row_color 12 (FVal.fin 50) = "green" ↔
      ¬ (50 : ℚ) < 12 ∧ ¬ ((50 : ℚ) / 2 < 12 ∧ (12 : ℚ) ≤ 50)) :=
  row_color_three_way 12 50

/-- C1: at the failing input (no active users, no override — here the empty
usage list with 4 cores and threshold 1) the code's fair-share computation
produces +Infinity, a non-finite value rather than a distinguishable
NoActiveUsers condition, and classification is not skipped: every finite
per-core share classifies "green" against the infinite fair share. -/
theorem fair_share_zero_active_infinity :
    active_users [] 4 1 = 0 ∧
    fair_share_val none (active_users [] 4 1) = FVal.inf ∧
    (∀ s : ℚ, row_color s FVal.inf = "green") :=
  ⟨rfl, rfl, fun _ => rfl⟩

/-! ### Claims about the refresh scheduler -/

/-- C7: in live mode, when the sleep duration is positive (so the channel
is waited on) and the cancellation signal arrives before the timeout, the
trace ends in Terminated after the Sleeping phase and contains exactly one
Sampling phase — no further sampling cycle begins. -/
theorem cancellation_precedence (c : CycleInput) (rest : List CycleInput)
    (hs : c.sleepPositive = true) (ho : c.outcome = WaitOutcome.signal) :
    traceFrom true (c :: rest)
        = [SchedState.sampling, SchedState.reporting, SchedState.sleeping,
           SchedState.terminated] ∧
      (traceFrom true (c :: rest)).count SchedState.sampling = 1 := by
  have h : traceFrom true (c :: rest)
      = [SchedState.sampling, SchedState.reporting, SchedState.sleeping,
         SchedState.terminated] := by
    simp [traceFrom, hs, ho]
  exact ⟨h, by rw [h]; decide⟩

theorem cancellation_precedence_witness :
    traceFrom true [⟨true, WaitOutcome.signal⟩]
        = [SchedState.sampling, SchedState.reporting, SchedState.sleeping,
           SchedState.terminated] ∧
      (traceFrom true [⟨true, WaitOutcome.signal⟩]).count SchedState.sampling = 1 :=
  cancellation_precedence ⟨true, WaitOutcome.signal⟩ [] rfl rfl

/-- C8: in single-shot mode exactly one Sampling→Reporting cycle executes
and the trace ends in Terminated; the Sleeping phase never appears. -/
theorem single_shot_one_cycle (c : CycleInput) (rest : List CycleInput) :
    traceFrom false (c :: rest)
        = [SchedState.sampling, SchedState.reporting, SchedState.terminated] ∧
      SchedState.sleeping ∉ traceFrom false (c :: rest) ∧
      (traceFrom false (c :: rest)).count SchedState.sampling = 1 := by
  have h : traceFrom false (c :: rest)
      = [SchedState.sampling, SchedState.reporting, SchedState.terminated] := by
    simp [traceFrom]
  exact ⟨h, by rw [h]; decide, by rw [h]; decide⟩

theorem single_shot_one_cycle_witness :
    traceFrom false [⟨false, WaitOutcome.timeout⟩]
        = [SchedState.sampling, SchedState.reporting, SchedState.terminated] ∧
      SchedState.sleeping ∉ traceFrom false [⟨false, WaitOutcome.timeout⟩] ∧
      (traceFrom false [⟨false, WaitOutcome.timeout⟩]).count SchedState.sampling = 1 :=
  single_shot_one_cycle ⟨false, WaitOutcome.timeout⟩ []

/-- C10: in live mode, a cycle with zero sleep duration skips the channel
wait entirely — whatever the queued outcome would have been, the trace goes
straight from Reporting into the next cycle's Sampling with no Sleeping
phase — and a queued cancellation signal is only observed at a later cycle
whose sleep duration is positive, as in the concrete two-cycle trace. -/
theorem zero_sleep_skips_channel :
    (∀ (o : WaitOutcome) (rest : List CycleInput),
        traceFrom true (⟨false, o⟩ :: rest)
          = SchedState.sampling :: SchedState.reporting :: traceFrom true rest) ∧
    traceFrom true [⟨false, WaitOutcome.signal⟩, ⟨true, WaitOutcome.signal⟩]
      = [SchedState.sampling, SchedState.reporting, SchedState.sampling,
         SchedState.reporting, SchedState.sleeping, SchedState.terminated] :=
  ⟨fun _ _ => rfl, rfl⟩

/-! ### The partial comparator of the sort (C9) -/

lemma exists_fin {x : F64} (h : x.isFin = true) : ∃ a, x = F64.fin a := by
  cases x with
  | nan => simp [F64.isFin] at h
  | fin a => exact ⟨a, rfl⟩

lemma insert_part_total (p : String × F64) (hp : p.2.isFin = true) :
    ∀ l : List (String × F64), (∀ q ∈ l, q.2.isFin = true) →
      ∃ l', insert_part p l = some l' ∧ ∀ q ∈ l', q.2.isFin = true := by
  intro l
  induction l with
  | nil =>
    intro _
    refine ⟨[p], rfl, ?_⟩
    intro q hq
    rw [List.mem_singleton.mp hq]
    exact hp
  | cons r rest ih =>
    intro hl
    have hr : r.2.isFin = true := hl r (List.mem_cons_self r rest)
    have hrest : ∀ q ∈ rest, q.2.isFin = true :=
      fun q hq => hl q (List.mem_cons_of_mem r hq)
    obtain ⟨l', hins, hfin⟩ := ih hrest
    obtain ⟨a, ha⟩ := exists_fin hr
    obtain ⟨b, hb⟩ := exists_fin hp
    cases hcomp : compare a b with
    | lt =>
      refine ⟨p :: r :: rest, ?_, ?_⟩
      · simp [insert_part, pcmp, ha, hb, hcomp]
      · intro q hq
        rcases List.mem_cons.mp hq with h | h
        · rw [h]; exact hp
        · exact hl q h
    | eq =>
      refine ⟨r :: l', ?_, ?_⟩
      · simp [insert_part, pcmp, ha, hb, hcomp, hins]
      · intro q hq
        rcases List.mem_cons.mp hq with h | h
        · rw [h]; exact hr
        · exact hfin q h
    | gt =>
      refine ⟨r :: l', ?_, ?_⟩
      · simp [insert_part, pcmp, ha, hb, hcomp, hins]
      · intro q hq
        rcases List.mem_cons.mp hq with h | h
        · rw [h]; exact hr
        · exact hfin q h

lemma sort_part_total :
    ∀ l : List (String × F64), (∀ q ∈ l, q.2.isFin = true) →
      ∃ l', sort_part l = some l' ∧ ∀ q ∈ l', q.2.isFin = true := by
  intro l
  induction l with
  | nil =>
    intro _
    exact ⟨[], rfl, by simp⟩
  | cons p rest ih =>
    intro hl
    have hp : p.2.isFin = true := hl p (List.mem_cons_self p rest)
    have hrest : ∀ q ∈ rest, q.2.isFin = true :=
      fun q hq => hl q (List.mem_cons_of_mem p hq)
    obtain ⟨l', hsort, hfin⟩ := ih hrest
    obtain ⟨l'', hins, hfin'⟩ := insert_part_total p hp l' hfin
    exact ⟨l'', by simp [sort_part, hsort, hins], hfin'⟩

/-- C9: the line-87 sort's comparator unwrap is safe exactly on NaN-free
data — when every summed usage is a finite (non-NaN) value the sort
succeeds (the panic branch is unreachable), while on an input containing a
NaN usage the comparison yields None and the sort panics. -/
theorem sort_nan_panics :
    (∀ l : List (String × F64), (∀ q ∈ l, q.2.isFin = true) →
        (sort_part l).isSome = true) ∧
    sort_part [("a", F64.nan), ("b", F64.fin 1)] = none := by
  constructor
  · intro l hl
    obtain ⟨l', h, _⟩ := sort_part_total l hl
    simp [h]
  · rfl

theorem sort_nan_panics_witness :
    (sort_part [("b", F64.fin 1), ("c", F64.fin 2)]).isSome = true :=
  sort_nan_panics.1 [("b", F64.fin 1), ("c", F64.fin 2)] (by decide)
